import Mathlib

/-!
Verification of the model-output parser and related glue in `src/libs/fm.py`
(classes `Libfm` and `Fastfm`).

Modelling conventions:
* A Python (2.x) text string is a `List Char`; a file's content is a `List Char`.
* Python `float(...)` applied to a string is `pyFloat? : List Char → Option ℚ`:
  numeric values are modelled as exact rationals.  The decimal grammar
  (optional surrounding whitespace, optional sign, integer/fraction digits,
  optional exponent) is modelled; the `inf`/`nan` words and digit
  underscores are not (no input in this development uses them).
* Python exceptions are `Except` values; an uncaught exception is `.error`.
-/

/-! ### Characters and low-level string operations -/

/-- The ASCII whitespace characters stripped by Python `float` (and `str.strip`). -/
def isPyWs (c : Char) : Bool :=
  c = ' ' || c = '\t' || c = '\n' || c = '\x0d' || c = '\x0b' || c = '\x0c'

/-- Decimal digit test, `'0'..'9'`. -/
def isDig (c : Char) : Bool :=
  '0' ≤ c && c ≤ '9'

/-- Numeric value of a digit character. -/
def digVal (c : Char) : ℕ := c.toNat - 48

/-- Value of a digit string read most-significant-first. -/
def digsVal (ds : List Char) : ℕ :=
  ds.foldl (fun a c => 10 * a + digVal c) 0

/-- Strip leading and trailing Python whitespace. -/
def stripWs (l : List Char) : List Char :=
  ((l.dropWhile isPyWs).reverse.dropWhile isPyWs).reverse

/-- `startsList p l`: `p` occurs at the very start of `l`. -/
def startsList : List Char → List Char → Bool
  | [], _ => true
  | _ :: _, [] => false
  | p :: ps, c :: cs => p = c && startsList ps cs

/-- Python substring containment `pat in l`. -/
def containsSub (pat : List Char) : List Char → Bool
  | [] => pat.isEmpty
  | c :: cs => startsList pat (c :: cs) || containsSub pat cs

/-- Python `line.startswith` with argument the one-character string `"#"`. -/
def startsHash (l : List Char) : Bool :=
  match l with
  | c :: _ => c = '#'
  | [] => false

/-- Python `str.splitlines` restricted to the `'\n'` terminator (the model files
written by libFM use plain newlines; the other Unicode line boundaries Python
recognises are not modelled). -/
def splitlinesPy : List Char → List (List Char)
  | [] => []
  | c :: cs =>
    if c = '\n' then [] :: splitlinesPy cs
    else
      match splitlinesPy cs with
      | [] => [[c]]
      | l :: ls => (c :: l) :: ls

/-- Python `str.split(sep)` with a one-character separator: splits at every
single occurrence of `sep`, keeping empty pieces (`"".split(sep) = ['']`). -/
def splitOn1 (sep : Char) : List Char → List (List Char)
  | [] => [[]]
  | c :: cs =>
    if c = sep then [] :: splitOn1 sep cs
    else
      match splitOn1 sep cs with
      | [] => [[c]]
      | l :: ls => (c :: l) :: ls

/-! ### Python `float(string)` -/

/-- Read an optional leading sign; returns whether it was `'-'` and the
remaining characters. -/
def readSign : List Char → Bool × List Char
  | '+' :: r => (false, r)
  | '-' :: r => (true, r)
  | l => (false, l)

/-- After the mantissa digits, accept either end of string or an exponent part
`(e|E)[sign]digits`; returns the signed decimal exponent. -/
def parseExpZ : List Char → Option ℤ
  | [] => some 0
  | c :: r =>
    if c = 'e' || c = 'E' then
      let (neg, r2) := readSign r
      let ed := r2.takeWhile isDig
      if ed.isEmpty || !(r2.dropWhile isDig).isEmpty then none
      else some (if neg then -(digsVal ed : ℤ) else (digsVal ed : ℤ))
    else none

/-- The rational value denoted by sign, integer digits, fraction digits and
decimal exponent: `±(intd.fracd) · 10 ^ exp`. -/
def decValue (neg : Bool) (intd fracd : List Char) (exp : ℤ) : ℚ :=
  let mnat : ℕ := digsVal intd * 10 ^ fracd.length + digsVal fracd
  let m : ℤ := if neg then -(mnat : ℤ) else (mnat : ℤ)
  let e : ℤ := exp - (fracd.length : ℤ)
  if 0 ≤ e then mkRat (m * (10 : ℤ) ^ e.toNat) 1 else mkRat m ((10 : ℕ) ^ (-e).toNat)

/-- The mantissa-and-exponent part of the Python `float(s)` grammar, after
whitespace stripping and the optional sign. -/
def pyFloatBody (neg : Bool) (s1 : List Char) : Option ℚ :=
  let intd := s1.takeWhile isDig
  let r1 := s1.dropWhile isDig
  match r1 with
  | '.' :: r2 =>
    let fracd := r2.takeWhile isDig
    let r3 := r2.dropWhile isDig
    if intd.isEmpty && fracd.isEmpty then none
    else (parseExpZ r3).map (decValue neg intd fracd)
  | _ =>
    if intd.isEmpty then none
    else (parseExpZ r1).map (decValue neg intd [])

/-- The grammar of Python `float(s)` after whitespace stripping: optional
sign, then the mantissa and exponent. -/
def pyFloatCore (s : List Char) : Option ℚ :=
  match readSign s with
  | (neg, s1) => pyFloatBody neg s1

/-- Python `float(s)` on a decimal literal.  Returns `none` exactly when
CPython raises `ValueError` (for the decimal forms; see module comment). -/
def pyFloat? (l : List Char) : Option ℚ :=
  pyFloatCore (stripWs l)

/-- `[float(x) for x in tokens]`: parse every token, aborting at the first
`ValueError` (`none`). -/
def floatList : List (List Char) → Option (List ℚ)
  | [] => some []
  | t :: ts =>
    match pyFloat? t with
    | none => none
    | some v =>
      match floatList ts with
      | none => none
      | some vs => some (v :: vs)

/-! ### The model-parameter file parser (`Libfm.run`, lines 232–256)

The Python loop keeps `global_bias`, `weights`, `pairwise_interactions` and a
section counter `out_iter`, and iterates over `model_fd.read().splitlines()`.
`pairwise_interactions` is a heterogeneous Python list: an element is either a
parsed row (`list` of floats) or the bare scalar `0.0` appended when a row
fails to parse. -/

/-- One element of the Python `pairwise_interactions` list. -/
inductive PairEntry where
  | row (xs : List ℚ)
  | scalar (x : ℚ)
  deriving DecidableEq, Repr

/-- The loop state of the parser in `Libfm.run`. -/
structure PState where
  global_bias : Option ℚ
  weights : List ℚ
  pairwise_interactions : List PairEntry
  out_iter : ℕ
  deriving DecidableEq, Repr

/-- An uncaught Python exception raised by the parse loop (`float` on a bad
string raises `ValueError`). -/
inductive PyErr where
  | valueError
  deriving DecidableEq, Repr

instance {ε α : Type} [DecidableEq ε] [DecidableEq α] : DecidableEq (Except ε α) := fun
  | .ok a, .ok b =>
    if h : a = b then .isTrue (by rw [h]) else .isFalse (fun hc => by cases hc; exact h rfl)
  | .ok _, .error _ => .isFalse (fun hc => by cases hc)
  | .error _, .ok _ => .isFalse (fun hc => by cases hc)
  | .error e, .error f =>
    if h : e = f then .isTrue (by rw [h]) else .isFalse (fun hc => by cases hc; exact h rfl)

/-- The marker substring for the global-bias section. -/
def mkG : List Char := "#global bias W0".data

/-- The marker substring for the unary-interactions (weights) section. -/
def mkU : List Char := "#unary interactions Wj".data

/-- The marker substring for the pairwise-interactions section. -/
def mkP : List Char := "#pairwise interactions Vj,f".data

/-- The initial parser state: bias `None`, empty lists, `out_iter = 0`. -/
def initPS : PState := ⟨none, [], [], 0⟩

/-- One iteration of the parse loop on a single line. -/
def step (st : PState) (line : List Char) : Except PyErr PState :=
  if startsHash line then
    if containsSub mkG line then .ok { st with out_iter := 0 }
    else if containsSub mkU line then .ok { st with out_iter := 1 }
    else if containsSub mkP line then .ok { st with out_iter := 2 }
    else .ok st
  else
    if st.out_iter = 0 then
      match pyFloat? line with
      | some v => .ok { st with global_bias := some v }
      | none => .error .valueError
    else if st.out_iter = 1 then
      match pyFloat? line with
      | some v => .ok { st with weights := st.weights ++ [v] }
      | none => .error .valueError
    else if st.out_iter = 2 then
      match floatList (splitOn1 ' ' line) with
      | some vs =>
        .ok { st with pairwise_interactions := st.pairwise_interactions ++ [.row vs] }
      | none =>
        .ok { st with pairwise_interactions := st.pairwise_interactions ++ [.scalar 0] }
    else .ok st

/-- Run the parse loop over a list of lines from a given state; an uncaught
exception aborts the whole loop. -/
def runLines (st : PState) : List (List Char) → Except PyErr PState
  | [] => .ok st
  | l :: ls =>
    match step st l with
    | .ok st2 => runLines st2 ls
    | .error e => .error e

/-- Parse a whole model file: split its content into lines
(`model_fd.read().splitlines()`) and run the loop from the initial state. -/
def parseModelFile (content : List Char) : Except PyErr PState :=
  runLines initPS (splitlinesPy content)

/-- Parse a list of already-split lines (the loop of `Libfm.run` itself). -/
def parseModelLines (lines : List (List Char)) : Except PyErr PState :=
  runLines initPS lines

/-! ### The predictions reader (`Libfm.run`, line 227)

`preds = [float(p) for p in out_fd.read().split('\n') if p]`: split on newline,
drop falsy (empty) pieces, parse each as a float. -/

/-- Read a flat file of floats, one per line, ignoring empty pieces. -/
def readFloats (c : List Char) : Option (List ℚ) :=
  floatList ((splitOn1 '\n' c).filter (fun p => !p.isEmpty))

/-! ### Fixed-point serialisation (`Libfm._save`, lines 134–137)

`np.savetxt(path, np.array(data), fmt='%.8f')` writes one value per line in C
`printf` fixed-point notation with 8 decimal digits.  Rounding to the nearest
multiple of `10^-p` is modelled with ties away from zero (an IEEE double
essentially never sits exactly on such a tie). -/

/-- Decimal digits of `n`, most significant first, via structural fuel. -/
def natDigsAux : ℕ → ℕ → List Char
  | 0, _ => []
  | fuel + 1, n =>
    if n < 10 then [Char.ofNat (48 + n)]
    else natDigsAux fuel (n / 10) ++ [Char.ofNat (48 + n % 10)]

/-- Decimal digits of `n`, most significant first (`natDigs 0 = "0"`). -/
def natDigs (n : ℕ) : List Char := natDigsAux (n + 1) n

/-- Digits of `m` left-padded with `'0'` to width `p`. -/
def padZeros (p m : ℕ) : List Char :=
  List.replicate (p - (natDigs m).length) '0' ++ natDigs m

/-- The numerator of `|q| · 10^p` rounded to the nearest integer (ties away
from zero): `⌊|q| · 10^p + 1/2⌋` computed in ℕ on `q`'s reduced fraction. -/
def roundNum (p : ℕ) (q : ℚ) : ℕ :=
  (2 * q.num.natAbs * 10 ^ p + q.den) / (2 * q.den)

/-- C `"%.pf" % q`: sign, integer digits, `'.'`, exactly `p` fraction digits. -/
def fmtFixed (p : ℕ) (q : ℚ) : List Char :=
  let r := roundNum p q
  (if q.num < 0 then ['-'] else []) ++ natDigs (r / 10 ^ p) ++ '.' :: padZeros p (r % 10 ^ p)

/-- The rational value actually printed by `fmtFixed p`: `q` rounded to `p`
decimal digits. -/
def roundFixed (p : ℕ) (q : ℚ) : ℚ :=
  if q.num < 0 then mkRat (-(roundNum p q : ℤ)) (10 ^ p) else mkRat (roundNum p q : ℤ) (10 ^ p)

/-- `np.savetxt(path, data, fmt='%.8f')` on a flat list: one value per line,
each line newline-terminated. -/
def savetxt8 (xs : List ℚ) : List Char :=
  (xs.map (fun x => fmtFixed 8 x ++ ['\n'])).flatten

/-! ### `Fastfm.__init__` (lines 296–332): estimator dispatch -/

/-- Python `str.upper` (ASCII letters; the method names involved are ASCII). -/
def pyUpper (l : List Char) : List Char :=
  l.map (fun c => if 'a' ≤ c && c ≤ 'z' then Char.ofNat (c.toNat - 32) else c)

/-- One of the three pre-built fastFM estimator variants, recording the
constructor arguments `Fastfm.__init__` passes to it. -/
inductive FMEstimator where
  | mcmcFM (n_iter : ℕ) (init_stdev : ℚ) (rank : ℕ) (random_state : ℤ)
  | alsFM (n_iter : ℕ) (init_stdev : ℚ) (rank : ℕ) (random_state : ℤ)
      (l2_reg l2_reg_w l2_reg_V : ℚ)
  | sgdFM (n_iter : ℕ) (init_stdev : ℚ) (rank : ℕ) (random_state : ℤ)
      (l2_reg l2_reg_w l2_reg_V : ℚ) (step_size : ℚ)
  deriving DecidableEq, Repr

/-- The state a successfully constructed `Fastfm` holds. -/
structure Fastfm where
  fm : FMEstimator
  method : List Char
  deriving DecidableEq, Repr

/-- The `TypeError` raised for an unrecognised learning method. -/
inductive CfgErr where
  | typeError
  deriving DecidableEq, Repr

/-- `Fastfm.__init__`: select the estimator by `learning_method.upper()`;
anything other than MCMC/ALS/SGD raises `TypeError`. -/
def fastfmInit (learning_method : List Char) (num_iter : ℕ) (init_stdev : ℚ)
    (k2 : ℕ) (learn_rate : ℚ) (r0_regularization r1_regularization r2_regularization : ℚ)
    (seed : ℤ) : Except CfgErr Fastfm :=
  if pyUpper learning_method = "MCMC".data then
    .ok ⟨.mcmcFM num_iter init_stdev k2 seed, pyUpper learning_method⟩
  else if pyUpper learning_method = "ALS".data then
    .ok ⟨.alsFM num_iter init_stdev k2 seed r0_regularization r1_regularization
      r2_regularization, pyUpper learning_method⟩
  else if pyUpper learning_method = "SGD".data then
    .ok ⟨.sgdFM num_iter init_stdev k2 seed r0_regularization r1_regularization
      r2_regularization learn_rate, pyUpper learning_method⟩
  else .error .typeError

/-! ### `Libfm.__init__` (lines 83–132) and the argument list of `Libfm.run`
(lines 174–216)

`Libfm.__init__` stores formatted configuration fields, requires the
`LIBFM_PATH` environment variable, runs `git rev-parse HEAD` on the libFM
checkout and requires the result to equal a hard-coded commit.  (The code
targets Python 2, where `subprocess` output and literals are both `str`;
the comparison is modelled as plain string equality.) -/

/-- `"%d" % n` for a nonnegative count. -/
def fmtNat (n : ℕ) : List Char := natDigs n

/-- `"%d" % z` for a Python int. -/
def fmtInt (z : ℤ) : List Char :=
  if z < 0 then '-' :: natDigs z.natAbs else natDigs z.natAbs

/-- `"%g" % q`.  Modelled: fixed-point with the fractional digits of
`"%.6f"` and trailing zeros (and a trailing point) stripped; the
significant-digit cut-off and scientific notation of C `%g` for extreme
magnitudes are not modelled (no claim depends on this field's digits). -/
def fmtG (q : ℚ) : List Char :=
  let s := (fmtFixed 6 q).reverse.dropWhile (fun c => c = '0')
  (match s with
   | '.' :: s2 => s2
   | s => s).reverse

/-- POSIX `os.path.flatten(a, b)` for a relative second component. -/
def pathJoin (a b : List Char) : List Char :=
  if a.isEmpty then b
  else if a.getLast? = some '/' then a ++ b
  else a ++ '/' :: b

/-- `"%d,%d,%d" % (int(k0), int(k1), k2)` — the `-dim` string. -/
def dimStr (k0 k1 : Bool) (k2 : ℕ) : List Char :=
  fmtNat (if k0 then 1 else 0) ++ ',' :: fmtNat (if k1 then 1 else 0) ++ ',' :: fmtNat k2

/-- `"%.5f,%.5f,%.5f" % (r0, r1, r2)` — the `-regular` string. -/
def regStr (r0 r1 r2 : ℚ) : List Char :=
  fmtFixed 5 r0 ++ ',' :: fmtFixed 5 r1 ++ ',' :: fmtFixed 5 r2

/-- `self.__seed = int(seed) if seed else None`: `None` and `0` are falsy. -/
def storedSeed (seed : Option ℤ) : Option ℤ :=
  match seed with
  | none => none
  | some s => if s = 0 then none else some s

/-- The configuration fields `Libfm.__init__` stores on `self`. -/
structure LibfmCfg where
  task : Char
  num_iter : ℕ
  init_stdev : ℚ
  dim : List Char
  learning_method : List Char
  learn_rate : ℚ
  regularization : List Char
  rlog : Bool
  verbose : ℕ
  seed : Option ℤ
  silent : Bool
  libfm_path : List Char
  deriving DecidableEq, Repr

/-- An exception raised by `Libfm.__init__`: `task[0]` on an empty string
raises `IndexError`; a missing `LIBFM_PATH` or a wrong commit raises
`OSError`. -/
inductive InitErr where
  | indexError
  | osError
  deriving DecidableEq, Repr

/-- The hard-coded commit hash `GITHASH` of `Libfm.__init__`. -/
def GITHASH : List Char := "91f8504a15120ef6815d6e10cc7dee42eebaab0f".data

/-- `Libfm.__init__`: store the configuration, then fail unless `LIBFM_PATH`
is set and the libFM checkout's `git rev-parse HEAD` equals `GITHASH`. -/
def libfmInit (task : List Char) (num_iter : ℕ) (init_stdev : ℚ) (k0 k1 : Bool)
    (k2 : ℕ) (learning_method : List Char) (learn_rate : ℚ) (r0 r1 r2 : ℚ)
    (rlog : Bool) (verbose : Bool) (seed : Option ℤ) (silent : Bool)
    (env_libfm_path : Option (List Char)) (c_githash : List Char) :
    Except InitErr LibfmCfg :=
  match task with
  | [] => .error .indexError
  | t :: _ =>
    match env_libfm_path with
    | none => .error .osError
    | some p =>
      if c_githash = GITHASH then
        .ok ⟨t, num_iter, init_stdev, dimStr k0 k1 k2, learning_method, learn_rate,
          regStr r0 r1 r2, rlog, (if verbose then 1 else 0), storedSeed seed, silent, p⟩
      else .error .osError

/-- `if self.__seed: args.extend(['-seed', "%d" % self.__seed])`
(lines 192–194): the seed pair is appended only when the stored seed is
truthy (non-`None` and nonzero). -/
def seedArgs (seed : Option ℤ) : List (List Char) :=
  match seed with
  | none => []
  | some s => if s = 0 then [] else ["-seed".data, fmtInt s]

/-- The per-run file names `Libfm.run` interpolates into the argument list. -/
structure RunFiles where
  train_set : List Char
  test_set : List Char
  out_name : List Char
  model_name : List Char
  rlog_name : List Char
  validation_set : Option (List Char)
  use_meta : Bool
  meta_name : List Char
  deriving DecidableEq, Repr

/-- The argument list built by `Libfm.run` (lines 174–216). -/
def buildArgs (c : LibfmCfg) (f : RunFiles) : List (List Char) :=
  [pathJoin c.libfm_path "libFM".data,
   "-task".data, [c.task],
   "-train".data, f.train_set,
   "-test".data, f.test_set,
   "-dim".data, '\x27' :: c.dim ++ ['\x27'],
   "-init_stdev".data, fmtG c.init_stdev,
   "-iter".data, fmtNat c.num_iter,
   "-method".data, c.learning_method,
   "-out".data, f.out_name,
   "-verbosity".data, fmtNat c.verbose,
   "-save_model".data, f.model_name]
  ++ (if c.rlog then ["-rlog".data, f.rlog_name] else [])
  ++ seedArgs c.seed
  ++ (if c.learning_method = "sgd".data || c.learning_method = "sgda".data then
        ["-learn_rate".data, fmtFixed 5 c.learn_rate] else [])
  ++ (if c.learning_method = "sgd".data || c.learning_method = "sgda".data
        || c.learning_method = "als".data then
        ["-regular".data, '\x27' :: c.regularization ++ ['\x27']] else [])
  ++ (match f.validation_set with
      | some v => if c.learning_method = "sgda".data then ["-validation".data, v] else []
      | none => [])
  ++ (if f.use_meta then ["-meta".data, f.meta_name] else [])

/-! ### Basic lemmas about lines and the section state machine -/

theorem dropWhile_concat_keep (p : Char → Bool) (c : Char) (hc : p c = false) :
    ∀ l : List Char, ∃ t2, (l ++ [c]).dropWhile p = t2 ++ [c] := by
  intro l
  induction l with
  | nil => exact ⟨[], by simp [List.dropWhile_cons, hc]⟩
  | cons a as ih =>
    by_cases ha : p a = true
    · obtain ⟨t2, ht⟩ := ih
      exact ⟨t2, by simp [List.dropWhile_cons, ha, ht]⟩
    · exact ⟨a :: as, by simp [List.dropWhile_cons, ha]⟩

theorem stripWs_hash (t : List Char) : ∃ t2, stripWs ('#' :: t) = '#' :: t2 := by
  have hws : isPyWs '#' = false := by decide
  unfold stripWs
  rw [List.dropWhile_cons]
  simp only [hws, Bool.false_eq_true, if_false]
  have hrev : ('#' :: t).reverse = t.reverse ++ ['#'] := by simp
  rw [hrev]
  obtain ⟨t2, ht⟩ := dropWhile_concat_keep isPyWs '#' hws t.reverse
  rw [ht]
  exact ⟨t2.reverse, by simp⟩

theorem pyFloatCore_hash (t : List Char) : pyFloatCore ('#' :: t) = none := rfl

theorem startsHash_true (l : List Char) (h : startsHash l = true) : ∃ t, l = '#' :: t := by
  cases l with
  | nil => cases h
  | cons c cs =>
    refine ⟨cs, ?_⟩
    have : (c = '#' : Bool) = true := h
    simp at this
    rw [this]

theorem pyFloat?_hash (l : List Char) (h : startsHash l = true) : pyFloat? l = none := by
  obtain ⟨t, rfl⟩ := startsHash_true l h
  obtain ⟨t2, hs⟩ := stripWs_hash t
  unfold pyFloat?
  rw [hs]
  exact pyFloatCore_hash t2

theorem pyFloat?_not_hash (l : List Char) (v : ℚ) (h : pyFloat? l = some v) :
    startsHash l = false := by
  cases hs : startsHash l with
  | false => rfl
  | true => rw [pyFloat?_hash l hs] at h; cases h

theorem splitOn1_ne_nil (sep : Char) (l : List Char) : splitOn1 sep l ≠ [] := by
  cases l with
  | nil => simp [splitOn1]
  | cons c cs =>
    unfold splitOn1
    by_cases h : c = sep
    · simp [h]
    · simp only [h, if_false]
      cases splitOn1 sep cs <;> simp

theorem splitOn1_hash (l : List Char) (h : startsHash l = true) :
    ∃ t1 rest, splitOn1 ' ' l = ('#' :: t1) :: rest := by
  obtain ⟨t, rfl⟩ := startsHash_true l h
  unfold splitOn1
  have hd : ¬('#' = ' ') := by decide
  simp only [hd, if_false]
  rcases he : splitOn1 ' ' t with _ | ⟨l2, ls⟩
  · exact absurd he (splitOn1_ne_nil ' ' t)
  · exact ⟨l2, ls, rfl⟩

theorem rowParse_hash (l : List Char) (h : startsHash l = true) :
    floatList (splitOn1 ' ' l) = none := by
  obtain ⟨t1, rest, hsp⟩ := splitOn1_hash l h
  rw [hsp]
  have hf : pyFloat? ('#' :: t1) = none := pyFloat?_hash _ rfl
  simp [floatList, hf]

theorem runLines_append (st : PState) (xs ys : List (List Char)) :
    runLines st (xs ++ ys) =
      match runLines st xs with
      | .ok st2 => runLines st2 ys
      | .error e => .error e := by
  induction xs generalizing st with
  | nil => simp [runLines]
  | cons l ls ih =>
    rw [List.cons_append]
    cases hstep : step st l with
    | ok st2 =>
      simp only [runLines, hstep]
      exact ih st2
    | error e =>
      simp only [runLines, hstep]

theorem step_markG (st : PState) : step st mkG = .ok { st with out_iter := 0 } := rfl

theorem step_markU (st : PState) : step st mkU = .ok { st with out_iter := 1 } := rfl

theorem step_markP (st : PState) : step st mkP = .ok { st with out_iter := 2 } := rfl

theorem step_hash (st : PState) (line : List Char) (hh : startsHash line = true) :
    ∃ k, step st line = .ok { st with out_iter := k } := by
  unfold step
  rw [hh]
  by_cases hg : containsSub mkG line = true
  · exact ⟨0, by simp [hg]⟩
  · by_cases hu : containsSub mkU line = true
    · exact ⟨1, by simp [hg, hu]⟩
    · by_cases hp : containsSub mkP line = true
      · exact ⟨2, by simp [hg, hu, hp]⟩
      · exact ⟨st.out_iter, by simp [hg, hu, hp]⟩

theorem step_bias_some (st : PState) (line : List Char) (v : ℚ)
    (h0 : st.out_iter = 0) (hl : pyFloat? line = some v) :
    step st line = .ok { st with global_bias := some v } := by
  have hh : startsHash line = false := pyFloat?_not_hash line v hl
  simp [step, hh, h0, hl]

theorem step_bias_none (st : PState) (line : List Char)
    (h0 : st.out_iter = 0) (hh : startsHash line = false) (hl : pyFloat? line = none) :
    step st line = .error .valueError := by
  simp [step, hh, h0, hl]

theorem step_w_some (st : PState) (line : List Char) (v : ℚ)
    (h1 : st.out_iter = 1) (hl : pyFloat? line = some v) :
    step st line = .ok { st with weights := st.weights ++ [v] } := by
  have hh : startsHash line = false := pyFloat?_not_hash line v hl
  simp [step, hh, h1, hl]

theorem step_w_none (st : PState) (line : List Char)
    (h1 : st.out_iter = 1) (hh : startsHash line = false) (hl : pyFloat? line = none) :
    step st line = .error .valueError := by
  simp [step, hh, h1, hl]

theorem step_pair_some (st : PState) (line : List Char) (vs : List ℚ)
    (h2 : st.out_iter = 2) (hl : floatList (splitOn1 ' ' line) = some vs) :
    step st line =
      .ok { st with pairwise_interactions := st.pairwise_interactions ++ [.row vs] } := by
  have hh : startsHash line = false := by
    cases hs : startsHash line with
    | false => rfl
    | true => rw [rowParse_hash line hs] at hl; cases hl
  simp [step, hh, h2, hl]

theorem step_pair_none (st : PState) (line : List Char)
    (h2 : st.out_iter = 2) (hh : startsHash line = false)
    (hl : floatList (splitOn1 ' ' line) = none) :
    step st line =
      .ok { st with pairwise_interactions := st.pairwise_interactions ++ [.scalar 0] } := by
  simp [step, hh, h2, hl]

theorem runLines_weights (st : PState) (lines : List (List Char)) (vals : List ℚ)
    (h1 : st.out_iter = 1) (hl : floatList lines = some vals) :
    runLines st lines = .ok { st with weights := st.weights ++ vals } := by
  induction lines generalizing st vals with
  | nil =>
    cases hl
    simp [runLines]
  | cons l ls ih =>
    unfold floatList at hl
    cases hf : pyFloat? l with
    | none => rw [hf] at hl; cases hl
    | some v =>
      rw [hf] at hl
      cases hrest : floatList ls with
      | none => rw [hrest] at hl; cases hl
      | some vs =>
        rw [hrest] at hl
        cases hl
        unfold runLines
        rw [step_w_some st l v h1 hf]
        dsimp only
        rw [ih { st with weights := st.weights ++ [v] } vs h1 hrest]
        simp

theorem runLines_bias (st : PState) (lines : List (List Char)) (vals : List ℚ)
    (h0 : st.out_iter = 0) (hl : floatList lines = some vals) :
    runLines st lines = .ok { st with global_bias := vals.getLast?.or st.global_bias } := by
  induction lines generalizing st vals with
  | nil =>
    cases hl
    simp [runLines]
  | cons l ls ih =>
    unfold floatList at hl
    cases hf : pyFloat? l with
    | none => rw [hf] at hl; cases hl
    | some v =>
      rw [hf] at hl
      cases hrest : floatList ls with
      | none => rw [hrest] at hl; cases hl
      | some vs =>
        rw [hrest] at hl
        cases hl
        unfold runLines
        rw [step_bias_some st l v h0 hf]
        dsimp only
        rw [ih { st with global_bias := some v } vs h0 hrest]
        cases vs with
        | nil => simp
        | cons w ws2 =>
          have hne : (w :: ws2).getLast?.isSome := by simp [List.getLast?_isSome]
          obtain ⟨u, hu⟩ := Option.isSome_iff_exists.mp hne
          simp [List.getLast?_cons_cons, hu]

theorem runLines_pairRows (st : PState) (lines : List (List Char)) (rows : List (List ℚ))
    (h2 : st.out_iter = 2)
    (hr : List.Forall₂ (fun l r => floatList (splitOn1 ' ' l) = some r) lines rows) :
    runLines st lines =
      .ok { st with pairwise_interactions :=
        st.pairwise_interactions ++ rows.map PairEntry.row } := by
  induction hr generalizing st with
  | nil => simp [runLines]
  | @cons a b l1 l2 hlr hrest ih =>
    unfold runLines
    rw [step_pair_some st _ _ h2 hlr]
    dsimp only
    rw [ih { st with pairwise_interactions :=
      st.pairwise_interactions ++ [PairEntry.row b] } h2]
    simp

theorem runLines_hashOnly (st : PState) (lines : List (List Char))
    (h : ∀ l ∈ lines, startsHash l = true) :
    ∃ k, runLines st lines =
      .ok ⟨st.global_bias, st.weights, st.pairwise_interactions, k⟩ := by
  induction lines generalizing st with
  | nil => exact ⟨st.out_iter, by simp [runLines]⟩
  | cons l ls ih =>
    obtain ⟨k1, hk1⟩ := step_hash st l (h l (by simp))
    obtain ⟨k2, hk2⟩ := ih { st with out_iter := k1 } (fun x hx => h x (by simp [hx]))
    refine ⟨k2, ?_⟩
    unfold runLines
    rw [hk1]
    dsimp only
    exact hk2

theorem floatList_length (lines : List (List Char)) (vals : List ℚ)
    (h : floatList lines = some vals) : vals.length = lines.length := by
  induction lines generalizing vals with
  | nil => cases h; rfl
  | cons l ls ih =>
    unfold floatList at h
    cases hf : pyFloat? l with
    | none => rw [hf] at h; cases h
    | some v =>
      rw [hf] at h
      cases hrest : floatList ls with
      | none => rw [hrest] at h; cases h
      | some vs => rw [hrest] at h; cases h; simp [ih vs hrest]

theorem splitOn1_concat_sep (sep : Char) (c : List Char) :
    splitOn1 sep (c ++ [sep]) = splitOn1 sep c ++ [[]] := by
  induction c with
  | nil => simp [splitOn1]
  | cons a as ih =>
    by_cases ha : a = sep
    · simp [splitOn1, ha, ih]
    · simp only [List.cons_append]
      unfold splitOn1
      simp only [ha, if_false]
      rw [ih]
      rcases he : splitOn1 sep as with _ | ⟨l2, ls⟩
      · exact absurd he (splitOn1_ne_nil sep as)
      · simp

theorem runLines_nil (st : PState) : runLines st [] = .ok st := rfl

theorem runLines_cons (st : PState) (l : List Char) (ls : List (List Char)) :
    runLines st (l :: ls) =
      match step st l with
      | .ok st2 => runLines st2 ls
      | .error e => .error e := rfl

/-- C1: a well-formed model file — the three marker lines in order, one
numeric bias line, N numeric weight lines, N rows of R space-separated
numeric tokens — parses to the bias value, the N weights in file order and
an N×R matrix of rows, with marker lines contributing no data. -/
theorem claim_C1 (N R : ℕ) (b : List Char) (vb : ℚ) (ws rows : List (List Char))
    (wvs : List ℚ) (rvs : List (List ℚ))
    (hb : pyFloat? b = some vb)
    (hw : floatList ws = some wvs)
    (hr : List.Forall₂ (fun l r => (splitOn1 ' ' l).length = R ∧
        floatList (splitOn1 ' ' l) = some r) rows rvs)
    (hwN : ws.length = N) (hrN : rows.length = N) :
    parseModelLines ([mkG, b, mkU] ++ ws ++ [mkP] ++ rows) =
      .ok ⟨some vb, wvs, rvs.map PairEntry.row, 2⟩ ∧
    wvs.length = N ∧ rvs.length = N ∧ ∀ r ∈ rvs, r.length = R := by
  have hr2 : List.Forall₂ (fun l r => floatList (splitOn1 ' ' l) = some r) rows rvs :=
    hr.imp (fun _ _ h => h.2)
  refine ⟨?_, ?_, ?_, ?_⟩
  · unfold parseModelLines
    have e1 : [mkG, b, mkU] ++ ws ++ [mkP] ++ rows =
        mkG :: b :: mkU :: (ws ++ mkP :: rows) := by simp
    rw [e1]
    rw [runLines_cons, step_markG]
    dsimp only
    rw [runLines_cons, step_bias_some _ b vb rfl hb]
    dsimp only
    rw [runLines_cons, step_markU]
    dsimp only
    rw [runLines_append]
    rw [runLines_weights _ ws wvs rfl hw]
    dsimp only
    rw [runLines_cons, step_markP]
    dsimp only
    rw [runLines_pairRows _ rows rvs rfl hr2]
    simp [initPS]
  · rw [floatList_length ws wvs hw, hwN]
  · rw [← hr2.length_eq, hrN]
  · intro r hm
    clear hwN hrN hb hw
    induction hr with
    | nil => cases hm
    | @cons a bb l1 l2 hab hrest ih =>
      rcases List.mem_cons.mp hm with rfl | hm2
      · rw [floatList_length _ _ hab.2, hab.1]
      · exact ih (hrest.imp (fun _ _ h => h.2)) hm2

theorem claim_C1_witness :
    parseModelLines ([mkG, "1.5".data, mkU] ++ ["2".data, "3".data] ++ [mkP] ++
        ["4 5".data, "6 7".data]) =
      .ok ⟨some (mkRat 3 2), [2, 3],
        [PairEntry.row [4, 5], PairEntry.row [6, 7]], 2⟩ ∧
    ([(2 : ℚ), 3]).length = 2 ∧ ([[(4 : ℚ), 5], [6, 7]]).length = 2 ∧
    ∀ r ∈ [[(4 : ℚ), 5], [6, 7]], r.length = 2 :=
  claim_C1 2 2 "1.5".data (mkRat 3 2) ["2".data, "3".data] ["4 5".data, "6 7".data]
    [2, 3] [[4, 5], [6, 7]] (by decide) (by decide)
    (.cons (by decide) (.cons (by decide) .nil)) rfl rfl

/-- C2: while the current section is the pairwise one, a step never raises;
a non-marker line any of whose tokens fails to parse appends exactly one
zero scalar in place of the row, leaving previously parsed rows intact. -/
theorem claim_C2 (st : PState) (line : List Char) (h2 : st.out_iter = 2) :
    (∃ st2, step st line = .ok st2) ∧
    (startsHash line = false → floatList (splitOn1 ' ' line) = none →
      step st line = .ok { st with pairwise_interactions :=
        st.pairwise_interactions ++ [PairEntry.scalar 0] }) := by
  constructor
  · by_cases hh : startsHash line = true
    · obtain ⟨k, hk⟩ := step_hash st line hh
      exact ⟨_, hk⟩
    · have hh2 : startsHash line = false := by simpa using hh
      cases hf : floatList (splitOn1 ' ' line) with
      | some vs => exact ⟨_, step_pair_some st line vs h2 hf⟩
      | none => exact ⟨_, step_pair_none st line h2 hh2 hf⟩
  · intro hh hf
    exact step_pair_none st line h2 hh hf

theorem claim_C2_witness :
    (∃ st2, step ⟨none, [], [PairEntry.row [7]], 2⟩ [] = .ok st2) ∧
    step ⟨none, [], [PairEntry.row [7]], 2⟩ [] =
      .ok ⟨none, [], [PairEntry.row [7], PairEntry.scalar 0], 2⟩ :=
  ⟨(claim_C2 ⟨none, [], [PairEntry.row [7]], 2⟩ [] rfl).1,
   (claim_C2 ⟨none, [], [PairEntry.row [7]], 2⟩ [] rfl).2 rfl rfl⟩

/-- C3 counterexample: on the pairwise data line `"1.0  2.0"` (two spaces)
the parser does not split on the whitespace run into the row `[1, 2]`; the
empty token between the spaces makes the row fail and a zero scalar is
appended instead. -/
theorem claim_C3_cex :
    step ⟨none, [], [], 2⟩ "1.0  2.0".data = .ok ⟨none, [], [PairEntry.scalar 0], 2⟩ ∧
    step ⟨none, [], [], 2⟩ "1.0  2.0".data ≠
      .ok ⟨none, [], [PairEntry.row [1, 2]], 2⟩ := by decide

/-- C3 (amended): a pairwise data line is split on every single space
character (not on whitespace runs); if all resulting tokens parse as floats
the row of their values is appended — lines with consecutive spaces or tab
separators instead produce unparsable tokens and fall to the zero sentinel. -/
theorem claim_C3 (st : PState) (line : List Char) (vs : List ℚ)
    (h2 : st.out_iter = 2) (hl : floatList (splitOn1 ' ' line) = some vs) :
    step st line = .ok { st with pairwise_interactions :=
      st.pairwise_interactions ++ [PairEntry.row vs] } :=
  step_pair_some st line vs h2 hl

theorem claim_C3_witness :
    step ⟨none, [], [], 2⟩ "4 5".data = .ok ⟨none, [], [PairEntry.row [4, 5]], 2⟩ :=
  claim_C3 ⟨none, [], [], 2⟩ "4 5".data [4, 5] rfl (by decide)

/-- C4 counterexample: trailing blank lines are not ignored by the model
parse — a trailing blank line in the pairwise section changes the result,
and one in the bias section makes the parse fail. -/
theorem claim_C4_cex :
    parseModelFile "#pairwise interactions Vj,f\n1.0\n\n".data ≠
      parseModelFile "#pairwise interactions Vj,f\n1.0\n".data ∧
    parseModelFile "1.5\n\n".data = .error .valueError := by decide

/-- C4 (amended): empty-piece filtering happens only in the predictions
read, where a trailing newline (blank line) never changes the result; in the
model parse a trailing blank line is a data line: fatal in the bias/weights
sections, and one more zero sentinel in the pairwise section. -/
theorem claim_C4 :
    (∀ c : List Char, readFloats (c ++ ['\n']) = readFloats c) ∧
    (∀ (ls : List (List Char)) (st : PState), parseModelLines ls = .ok st →
      ((st.out_iter = 0 ∨ st.out_iter = 1) →
        parseModelLines (ls ++ [[]]) = .error .valueError) ∧
      (st.out_iter = 2 →
        parseModelLines (ls ++ [[]]) = .ok { st with pairwise_interactions :=
          st.pairwise_interactions ++ [PairEntry.scalar 0] })) := by
  constructor
  · intro c
    unfold readFloats
    rw [splitOn1_concat_sep]
    simp
  · intro ls st hls
    constructor
    · intro hiter
      unfold parseModelLines at *
      rw [runLines_append, hls]
      dsimp only
      rw [runLines_cons]
      rcases hiter with h0 | h1
      · rw [step_bias_none st [] h0 rfl rfl]
      · rw [step_w_none st [] h1 rfl rfl]
    · intro h2
      unfold parseModelLines at *
      rw [runLines_append, hls]
      dsimp only
      rw [runLines_cons, step_pair_none st [] h2 rfl rfl]
      dsimp only
      rw [runLines_nil]

theorem claim_C4_witness :
    readFloats ("1.5\n".data ++ ['\n']) = readFloats "1.5\n".data ∧
    parseModelLines ([mkP] ++ [[]]) = .ok ⟨none, [], [PairEntry.scalar 0], 2⟩ :=
  ⟨claim_C4.1 "1.5\n".data,
   (claim_C4.2 [mkP] ⟨none, [], [], 2⟩ (by decide)).2 rfl⟩

/-- C5: a model file with no marker lines and only numeric lines assigns
every line to the bias (each overwriting the last), so the final bias is the
last line's value and the weights and pairwise sequences stay empty. -/
theorem claim_C5 (lines : List (List Char)) (vals : List ℚ)
    (hl : floatList lines = some vals) :
    parseModelLines lines = .ok ⟨vals.getLast?, [], [], 0⟩ := by
  unfold parseModelLines
  rw [runLines_bias initPS lines vals rfl hl]
  simp [initPS]

theorem claim_C5_witness :
    parseModelLines ["1".data, "2.5".data] =
      .ok ⟨[(1 : ℚ), mkRat 5 2].getLast?, [], [], 0⟩ :=
  claim_C5 ["1".data, "2.5".data] [1, mkRat 5 2] (by decide)

/-- C6: a non-marker line that fails to parse as a float while the section
is bias or weights aborts the whole parse with an error; and a file of
marker lines only parses successfully with bias unset and both sequences
empty. -/
theorem claim_C6 :
    (∀ (pre post : List (List Char)) (line : List Char) (st : PState),
        parseModelLines pre = .ok st → (st.out_iter = 0 ∨ st.out_iter = 1) →
        startsHash line = false → pyFloat? line = none →
        parseModelLines (pre ++ line :: post) = .error .valueError) ∧
    (∀ lines : List (List Char), (∀ l ∈ lines, startsHash l = true) →
        ∃ k, parseModelLines lines = .ok ⟨none, [], [], k⟩) := by
  constructor
  · intro pre post line st hpre hiter hh hl
    unfold parseModelLines at *
    rw [runLines_append, hpre]
    dsimp only
    rw [runLines_cons]
    rcases hiter with h0 | h1
    · rw [step_bias_none st line h0 hh hl]
    · rw [step_w_none st line h1 hh hl]
  · intro lines h
    obtain ⟨k, hk⟩ := runLines_hashOnly initPS lines h
    exact ⟨k, hk⟩

theorem claim_C6_witness :
    parseModelLines (["1.0".data] ++ "x".data :: []) = .error .valueError ∧
    ∃ k, parseModelLines [mkG, mkP] = .ok ⟨none, [], [], k⟩ :=
  ⟨claim_C6.1 ["1.0".data] [] "x".data ⟨some 1, [], [], 0⟩ (by decide)
      (Or.inl rfl) (by decide) (by decide),
   claim_C6.2 [mkG, mkP] (by decide)⟩

/-- C7: `Fastfm` construction matches the learning method case-insensitively
(via `upper()`) against MCMC/ALS/SGD, selecting the corresponding estimator
variant; any other name raises `TypeError` with no estimator constructed. -/
theorem claim_C7 (lm : List Char) (num_iter : ℕ) (init_stdev : ℚ) (k2 : ℕ)
    (learn_rate r0 r1 r2 : ℚ) (seed : ℤ) :
    (pyUpper lm ≠ "MCMC".data ∧ pyUpper lm ≠ "ALS".data ∧ pyUpper lm ≠ "SGD".data →
      fastfmInit lm num_iter init_stdev k2 learn_rate r0 r1 r2 seed =
        .error .typeError) ∧
    (pyUpper lm = "MCMC".data →
      fastfmInit lm num_iter init_stdev k2 learn_rate r0 r1 r2 seed =
        .ok ⟨.mcmcFM num_iter init_stdev k2 seed, "MCMC".data⟩) ∧
    (pyUpper lm = "ALS".data →
      fastfmInit lm num_iter init_stdev k2 learn_rate r0 r1 r2 seed =
        .ok ⟨.alsFM num_iter init_stdev k2 seed r0 r1 r2, "ALS".data⟩) ∧
    (pyUpper lm = "SGD".data →
      fastfmInit lm num_iter init_stdev k2 learn_rate r0 r1 r2 seed =
        .ok ⟨.sgdFM num_iter init_stdev k2 seed r0 r1 r2 learn_rate, "SGD".data⟩) := by
  refine ⟨?_, ?_, ?_, ?_⟩
  · intro ⟨h1, h2, h3⟩
    simp [fastfmInit, h1, h2, h3]
  · intro h
    simp [fastfmInit, h]
  · intro h
    rw [fastfmInit, h]
    simp
  · intro h
    rw [fastfmInit, h]
    simp

theorem claim_C7_witness :
    fastfmInit "foo".data 1 0 1 0 0 0 0 123 = .error .typeError ∧
    fastfmInit "mCmC".data 1 0 1 0 0 0 0 123 =
      .ok ⟨.mcmcFM 1 0 1 123, "MCMC".data⟩ :=
  ⟨(claim_C7 "foo".data 1 0 1 0 0 0 0 123).1 ⟨by decide, by decide, by decide⟩,
   (claim_C7 "mCmC".data 1 0 1 0 0 0 0 123).2.1 (by decide)⟩

/-- C9: even with `LIBFM_PATH` set, `Libfm` construction fails unless the
checkout's `git rev-parse HEAD` equals the hard-coded commit; it succeeds
exactly when the path is set and the commit matches. -/
theorem claim_C9 (task : List Char) (num_iter : ℕ) (init_stdev : ℚ) (k0 k1 : Bool)
    (k2 : ℕ) (lm : List Char) (learn_rate r0 r1 r2 : ℚ) (rlog verbose : Bool)
    (seed : Option ℤ) (silent : Bool) (env : Option (List Char)) (git : List Char)
    (htask : task ≠ []) :
    (∃ cfg, libfmInit task num_iter init_stdev k0 k1 k2 lm learn_rate r0 r1 r2
        rlog verbose seed silent env git = .ok cfg) ↔
      (env.isSome ∧ git = GITHASH) := by
  cases task with
  | nil => exact absurd rfl htask
  | cons t ts =>
    cases env with
    | none => simp [libfmInit]
    | some p =>
      by_cases hg : git = GITHASH
      · simp [libfmInit, hg]
      · simp [libfmInit, hg]

theorem claim_C9_witness :
    ((∃ cfg, libfmInit "classification".data 100 1 true true 8 "mcmc".data 1 0 0 0
        true false none false (some "/opt/libfm/bin".data) GITHASH = .ok cfg) ↔
      ((some "/opt/libfm/bin".data).isSome ∧ GITHASH = GITHASH)) ∧
    ((∃ cfg, libfmInit "classification".data 100 1 true true 8 "mcmc".data 1 0 0 0
        true false none false (some "/opt/libfm/bin".data) "f00".data = .ok cfg) ↔
      ((some "/opt/libfm/bin".data).isSome ∧ "f00".data = GITHASH)) :=
  ⟨claim_C9 "classification".data 100 1 true true 8 "mcmc".data 1 0 0 0
      true false none false (some "/opt/libfm/bin".data) GITHASH (by decide),
   claim_C9 "classification".data 100 1 true true 8 "mcmc".data 1 0 0 0
      true false none false (some "/opt/libfm/bin".data) "f00".data (by decide)⟩

/-- C10: a configured seed of 0 is stored as absent (exactly like `None`),
the `-seed` pair is omitted from the argument list for an absent seed, and
the argument lists built for seed=0 and seed=None are identical. -/
theorem claim_C10 :
    storedSeed (some 0) = none ∧
    storedSeed (some 0) = storedSeed none ∧
    seedArgs (storedSeed (some 0)) = [] ∧
    seedArgs (storedSeed none) = [] ∧
    (∀ (c : LibfmCfg) (f : RunFiles),
      buildArgs { c with seed := storedSeed (some 0) } f =
        buildArgs { c with seed := storedSeed none } f) :=
  ⟨rfl, rfl, rfl, rfl, fun _ _ => rfl⟩

/-! ### Digits, rendering and re-parsing (for the `%.8f` round-trip) -/

theorem digsVal_foldl (B : List Char) (a : ℕ) :
    B.foldl (fun x c => 10 * x + digVal c) a = a * 10 ^ B.length + digsVal B := by
  induction B generalizing a with
  | nil => simp [digsVal]
  | cons c cs ih =>
    simp only [List.foldl_cons, List.length_cons]
    rw [ih (10 * a + digVal c)]
    have h2 : digsVal (c :: cs) = digVal c * 10 ^ cs.length + digsVal cs := by
      show List.foldl (fun x c => 10 * x + digVal c) 0 (c :: cs) =
        digVal c * 10 ^ cs.length + digsVal cs
      simp only [List.foldl_cons]
      rw [ih (10 * 0 + digVal c)]
      ring_nf
    rw [h2]
    ring

theorem digsVal_append (A B : List Char) :
    digsVal (A ++ B) = digsVal A * 10 ^ B.length + digsVal B := by
  unfold digsVal
  rw [List.foldl_append]
  exact digsVal_foldl B _

theorem digVal_ofNat (d : ℕ) (hd : d < 10) : digVal (Char.ofNat (48 + d)) = d := by
  interval_cases d <;> decide

theorem digitChar_props (d : ℕ) (hd : d < 10) :
    isDig (Char.ofNat (48 + d)) = true ∧ isPyWs (Char.ofNat (48 + d)) = false ∧
    Char.ofNat (48 + d) ≠ '+' ∧ Char.ofNat (48 + d) ≠ '-' ∧
    Char.ofNat (48 + d) ≠ '.' ∧ Char.ofNat (48 + d) ≠ '\n' := by
  interval_cases d <;> exact ⟨rfl, rfl, by decide, by decide, by decide, by decide⟩

theorem natDigsAux_mem (fuel : ℕ) : ∀ (n : ℕ), n < fuel →
    ∀ c ∈ natDigsAux fuel n, ∃ d, d < 10 ∧ c = Char.ofNat (48 + d) := by
  induction fuel with
  | zero => intro n h; omega
  | succ f ih =>
    intro n h c hc
    unfold natDigsAux at hc
    by_cases hn : n < 10
    · simp only [hn, if_true, List.mem_singleton] at hc
      exact ⟨n, hn, hc⟩
    · simp only [hn, if_false, List.mem_append, List.mem_singleton] at hc
      rcases hc with hc | hc
      · exact ih (n / 10) (by omega) c hc
      · exact ⟨n % 10, by omega, hc⟩

theorem natDigsAux_ne_nil (fuel n : ℕ) (h : n < fuel) : natDigsAux fuel n ≠ [] := by
  cases fuel with
  | zero => omega
  | succ f =>
    unfold natDigsAux
    by_cases hn : n < 10
    · simp [hn]
    · simp [hn]

theorem digsVal_natDigsAux (fuel : ℕ) : ∀ (n : ℕ), n < fuel →
    digsVal (natDigsAux fuel n) = n := by
  induction fuel with
  | zero => intro n h; omega
  | succ f ih =>
    intro n h
    unfold natDigsAux
    by_cases hn : n < 10
    · simp only [hn, if_true]
      have : digsVal [Char.ofNat (48 + n)] = digVal (Char.ofNat (48 + n)) := by
        simp [digsVal]
      rw [this, digVal_ofNat n hn]
    · simp only [hn, if_false]
      rw [digsVal_append]
      have h1 : digsVal (natDigsAux f (n / 10)) = n / 10 := ih (n / 10) (by omega)
      have h2 : digsVal [Char.ofNat (48 + n % 10)] = n % 10 := by
        have : digsVal [Char.ofNat (48 + n % 10)] = digVal (Char.ofNat (48 + n % 10)) := by
          simp [digsVal]
        rw [this, digVal_ofNat _ (by omega)]
      rw [h1, h2]
      simp only [List.length_singleton, pow_one]
      omega

theorem digsVal_natDigs (n : ℕ) : digsVal (natDigs n) = n :=
  digsVal_natDigsAux (n + 1) n (by omega)

theorem natDigs_mem (n : ℕ) : ∀ c ∈ natDigs n, ∃ d, d < 10 ∧ c = Char.ofNat (48 + d) :=
  natDigsAux_mem (n + 1) n (by omega)

theorem natDigs_ne_nil (n : ℕ) : natDigs n ≠ [] :=
  natDigsAux_ne_nil (n + 1) n (by omega)

theorem natDigsAux_length (fuel : ℕ) : ∀ (n p : ℕ), n < fuel → 1 ≤ p → n < 10 ^ p →
    (natDigsAux fuel n).length ≤ p := by
  induction fuel with
  | zero => intro n p h; omega
  | succ f ih =>
    intro n p h hp hn
    unfold natDigsAux
    by_cases hn10 : n < 10
    · simpa [hn10] using hp
    · simp only [hn10, if_false, List.length_append, List.length_singleton]
      match p, hp with
      | 1, _ =>
        rw [pow_one] at hn
        omega
      | p + 2, _ =>
        have hdiv : n / 10 < 10 ^ (p + 1) := by
          rw [Nat.div_lt_iff_lt_mul (by omega)]
          calc n < 10 ^ (p + 2) := hn
          _ = 10 ^ (p + 1) * 10 := by ring
        have := ih (n / 10) (p + 1) (by omega) (by omega) hdiv
        omega

theorem padZeros_length (p m : ℕ) (hp : 1 ≤ p) (hm : m < 10 ^ p) :
    (padZeros p m).length = p := by
  unfold padZeros
  have hle : (natDigs m).length ≤ p := natDigsAux_length (m + 1) m p (by omega) hp hm
  simp only [List.length_append, List.length_replicate]
  omega

theorem digsVal_replicate_zero (k : ℕ) : digsVal (List.replicate k '0') = 0 := by
  induction k with
  | zero => rfl
  | succ j ih =>
    have : List.replicate (j + 1) '0' = ['0'] ++ List.replicate j '0' := by
      simp [List.replicate_succ]
    rw [this, digsVal_append, ih]
    simp [digsVal, digVal]

theorem digsVal_padZeros (p m : ℕ) : digsVal (padZeros p m) = m := by
  unfold padZeros
  rw [digsVal_append, digsVal_replicate_zero, digsVal_natDigs]
  simp

theorem padZeros_mem (p m : ℕ) :
    ∀ c ∈ padZeros p m, ∃ d, d < 10 ∧ c = Char.ofNat (48 + d) := by
  intro c hc
  unfold padZeros at hc
  rcases List.mem_append.mp hc with hc | hc
  · have : c = '0' := List.eq_of_mem_replicate hc
    exact ⟨0, by omega, by rw [this]⟩
  · exact natDigs_mem m c hc

theorem takeWhile_digits (A B : List Char) (hA : ∀ c ∈ A, isDig c = true) :
    (A ++ B).takeWhile isDig = A ++ B.takeWhile isDig := by
  induction A with
  | nil => simp
  | cons a as ih =>
    have ha : isDig a = true := hA a (by simp)
    simp only [List.cons_append, List.takeWhile_cons, ha, if_true]
    rw [ih (fun c hc => hA c (by simp [hc]))]

theorem dropWhile_digits (A B : List Char) (hA : ∀ c ∈ A, isDig c = true) :
    (A ++ B).dropWhile isDig = B.dropWhile isDig := by
  induction A with
  | nil => simp
  | cons a as ih =>
    have ha : isDig a = true := hA a (by simp)
    simp only [List.cons_append, List.dropWhile_cons, ha, if_true]
    exact ih (fun c hc => hA c (by simp [hc]))

theorem dropWhile_eq_self_of (p : Char → Bool) (l : List Char)
    (h : ∀ c ∈ l, p c = false) : l.dropWhile p = l := by
  cases l with
  | nil => rfl
  | cons a as =>
    have ha : p a = false := h a (by simp)
    simp [List.dropWhile_cons, ha]

theorem stripWs_eq_self (l : List Char) (h : ∀ c ∈ l, isPyWs c = false) :
    stripWs l = l := by
  unfold stripWs
  rw [dropWhile_eq_self_of _ l h,
    dropWhile_eq_self_of _ l.reverse (fun c hc => h c (List.mem_reverse.mp hc)),
    List.reverse_reverse]

theorem readSign_digit (d : ℕ) (hd : d < 10) (t : List Char) :
    readSign (Char.ofNat (48 + d) :: t) = (false, Char.ofNat (48 + d) :: t) := by
  interval_cases d <;> rfl

theorem decValue_frac (neg : Bool) (I F : List Char) (hF : 1 ≤ F.length) :
    decValue neg I F 0 =
      mkRat (if neg then -((digsVal I * 10 ^ F.length + digsVal F : ℕ) : ℤ)
             else ((digsVal I * 10 ^ F.length + digsVal F : ℕ) : ℤ))
        ((10 : ℕ) ^ F.length) := by
  unfold decValue
  have he : ¬(0 ≤ (0 - (F.length : ℤ))) := by omega
  have ht : (-(0 - (F.length : ℤ))).toNat = F.length := by omega
  simp only [he, if_false, ht]

theorem takeWhile_all (p : Char → Bool) (l : List Char) (h : ∀ c ∈ l, p c = true) :
    l.takeWhile p = l := by
  induction l with
  | nil => rfl
  | cons a as ih =>
    have ha : p a = true := h a (by simp)
    simp only [List.takeWhile_cons, ha, if_true]
    rw [ih (fun c hc => h c (by simp [hc]))]

theorem dropWhile_all (p : Char → Bool) (l : List Char) (h : ∀ c ∈ l, p c = true) :
    l.dropWhile p = [] := by
  induction l with
  | nil => rfl
  | cons a as ih =>
    have ha : p a = true := h a (by simp)
    simp only [List.dropWhile_cons, ha, if_true]
    exact ih (fun c hc => h c (by simp [hc]))

theorem pyFloatBody_digits (neg : Bool) (I F : List Char)
    (hI : ∀ c ∈ I, ∃ d, d < 10 ∧ c = Char.ofNat (48 + d))
    (hF : ∀ c ∈ F, ∃ d, d < 10 ∧ c = Char.ofNat (48 + d))
    (hne : I ≠ []) :
    pyFloatBody neg (I ++ '.' :: F) = some (decValue neg I F 0) := by
  have hIdig : ∀ c ∈ I, isDig c = true := by
    intro c hc
    obtain ⟨d, hd, rfl⟩ := hI c hc
    exact (digitChar_props d hd).1
  have hFdig : ∀ c ∈ F, isDig c = true := by
    intro c hc
    obtain ⟨d, hd, rfl⟩ := hF c hc
    exact (digitChar_props d hd).1
  have hdot : isDig '.' = false := by decide
  simp only [pyFloatBody]
  rw [takeWhile_digits I ('.' :: F) hIdig, dropWhile_digits I ('.' :: F) hIdig]
  simp only [List.takeWhile_cons, List.dropWhile_cons, hdot, Bool.false_eq_true,
    if_false, List.append_nil]
  rw [takeWhile_all isDig F hFdig, dropWhile_all isDig F hFdig]
  have hie : I.isEmpty = false := by
    cases I with
    | nil => exact absurd rfl hne
    | cons a as => rfl
  simp [hie, parseExpZ]

theorem fmtFixed_mem (p : ℕ) (q : ℚ) : ∀ c ∈ fmtFixed p q, isPyWs c = false := by
  intro c hc
  unfold fmtFixed at hc
  simp only [List.mem_append, List.mem_cons] at hc
  rcases hc with (hc | hc) | hc | hc
  · by_cases hneg : q.num < 0
    · simp only [hneg, if_true, List.mem_singleton] at hc
      rw [hc]; decide
    · simp only [hneg, if_false] at hc
      cases hc
  · obtain ⟨d, hd, rfl⟩ := natDigs_mem _ c hc
    exact (digitChar_props d hd).2.1
  · rw [hc]; decide
  · obtain ⟨d, hd, rfl⟩ := padZeros_mem _ _ c hc
    exact (digitChar_props d hd).2.1

theorem fmtFixed_ne_nil (p : ℕ) (q : ℚ) : fmtFixed p q ≠ [] := by
  unfold fmtFixed
  intro h
  rcases List.append_eq_nil.mp h with ⟨h1, h2⟩
  simp at h2

theorem pyFloat?_fmtFixed (p : ℕ) (hp : 1 ≤ p) (q : ℚ) :
    pyFloat? (fmtFixed p q) = some (roundFixed p q) := by
  have hpow : 0 < 10 ^ p := by positivity
  have hfrac : roundNum p q % 10 ^ p < 10 ^ p := Nat.mod_lt _ hpow
  have hFlen : (padZeros p (roundNum p q % 10 ^ p)).length = p :=
    padZeros_length p _ hp hfrac
  have hsum : roundNum p q / 10 ^ p * 10 ^ p + roundNum p q % 10 ^ p = roundNum p q := by
    rw [Nat.mul_comm]
    exact Nat.div_add_mod _ _
  unfold pyFloat?
  rw [stripWs_eq_self _ (fmtFixed_mem p q)]
  unfold fmtFixed
  by_cases hneg : q.num < 0
  · simp only [hneg, if_true]
    rw [show ['-'] ++ natDigs (roundNum p q / 10 ^ p) ++
        '.' :: padZeros p (roundNum p q % 10 ^ p) =
        '-' :: (natDigs (roundNum p q / 10 ^ p) ++
          '.' :: padZeros p (roundNum p q % 10 ^ p)) by simp]
    show pyFloatBody true (natDigs (roundNum p q / 10 ^ p) ++
      '.' :: padZeros p (roundNum p q % 10 ^ p)) = some (roundFixed p q)
    rw [pyFloatBody_digits true _ _ (natDigs_mem _) (padZeros_mem _ _) (natDigs_ne_nil _)]
    rw [decValue_frac true _ _ (by omega)]
    rw [digsVal_natDigs, digsVal_padZeros, hFlen, hsum]
    unfold roundFixed
    simp [hneg]
  · simp only [hneg, if_false, List.nil_append]
    rcases he : natDigs (roundNum p q / 10 ^ p) with _ | ⟨c0, t⟩
    · exact absurd he (natDigs_ne_nil _)
    · have hmem0 : c0 ∈ natDigs (roundNum p q / 10 ^ p) := by rw [he]; simp
      obtain ⟨d0, hd0, hc0⟩ := natDigs_mem _ c0 hmem0
      rw [show (c0 :: t) ++ '.' :: padZeros p (roundNum p q % 10 ^ p) =
        c0 :: (t ++ '.' :: padZeros p (roundNum p q % 10 ^ p)) by simp]
      unfold pyFloatCore
      rw [hc0, readSign_digit d0 hd0]
      dsimp only
      rw [← hc0, show c0 :: (t ++ '.' :: padZeros p (roundNum p q % 10 ^ p)) =
        (c0 :: t) ++ '.' :: padZeros p (roundNum p q % 10 ^ p) by simp]
      rw [pyFloatBody_digits false _ _ (he ▸ natDigs_mem (roundNum p q / 10 ^ p))
        (padZeros_mem _ _) (by simp)]
      rw [decValue_frac false _ _ (by omega)]
      rw [← he, digsVal_natDigs, digsVal_padZeros, hFlen, hsum]
      unfold roundFixed
      simp [hneg]

theorem roundCore_abs_le (nn d r p : ℕ) (hd : 0 < d)
    (hr : r = (2 * nn * 10 ^ p + d) / (2 * d)) :
    |(r : ℚ) / 10 ^ p - (nn : ℚ) / (d : ℚ)| ≤ 1 / (2 * 10 ^ p) := by
  have hP : (0 : ℚ) < 10 ^ p := by positivity
  have hD : (0 : ℚ) < (d : ℚ) := by exact_mod_cast hd
  have k1 : r * (2 * d) ≤ 2 * nn * 10 ^ p + d := by
    rw [hr]
    exact Nat.div_mul_le_self _ _
  have k2 : 2 * nn * 10 ^ p + d < (r + 1) * (2 * d) := by
    refine (Nat.div_lt_iff_lt_mul (by omega)).mp ?_
    rw [hr]
    omega
  have q1 : (r : ℚ) * (2 * d) ≤ 2 * nn * 10 ^ p + d := by exact_mod_cast k1
  have q2 : ((2 * nn * 10 ^ p + d : ℕ) : ℚ) < ((r : ℚ) + 1) * (2 * d) := by
    exact_mod_cast k2
  push_cast at q1 q2
  have expand : (r : ℚ) / 10 ^ p - (nn : ℚ) / d =
      ((r : ℚ) * (2 * d) - 2 * nn * 10 ^ p) / (2 * d * 10 ^ p) := by
    field_simp
    ring
  rw [expand, abs_div, abs_of_pos (show (0 : ℚ) < 2 * d * 10 ^ p by positivity)]
  rw [div_le_div_iff₀ (by positivity) (show (0 : ℚ) < 2 * 10 ^ p by positivity)]
  have habs : |(r : ℚ) * (2 * d) - 2 * nn * 10 ^ p| ≤ d := by
    rw [abs_le]
    constructor
    · nlinarith [q2]
    · nlinarith [q1]
  nlinarith [habs, hP]

theorem roundFixed_abs_le (p : ℕ) (q : ℚ) :
    |roundFixed p q - q| ≤ 1 / (2 * 10 ^ p) := by
  have hd : 0 < q.den := q.pos
  have hq : (q.num : ℚ) / (q.den : ℚ) = q := Rat.num_div_den q
  have hdq : ((q.den : ℚ)) ≠ 0 := by positivity
  have hqden : ((q.num : ℚ)) = q * (q.den : ℚ) := (div_eq_iff hdq).mp hq
  unfold roundFixed
  by_cases hneg : q.num < 0
  · simp only [hneg, if_true]
    have hmk : mkRat (-(roundNum p q : ℤ)) (10 ^ p) =
        -((roundNum p q : ℚ) / (10 ^ p : ℚ)) := by
      rw [Rat.mkRat_eq_div]
      push_cast
      ring
    have h1 : ((q.num.natAbs : ℚ)) = -(q.num : ℚ) := by
      have ha : |q.num| = -q.num := abs_of_neg hneg
      rw [Int.cast_natAbs, ha]
      push_cast
      ring
    have hmq : -q = (q.num.natAbs : ℚ) / (q.den : ℚ) := by
      rw [eq_div_iff hdq, h1]
      linear_combination hqden
    rw [hmk, show -((roundNum p q : ℚ) / (10 ^ p : ℚ)) - q =
      -((roundNum p q : ℚ) / (10 ^ p : ℚ) - -q) by ring, hmq, abs_neg]
    exact roundCore_abs_le q.num.natAbs q.den (roundNum p q) p hd rfl
  · simp only [hneg, if_false]
    have hmk : mkRat ((roundNum p q : ℕ) : ℤ) (10 ^ p) =
        (roundNum p q : ℚ) / (10 ^ p : ℚ) := by
      rw [Rat.mkRat_eq_div]
      push_cast
      ring
    have h1 : ((q.num.natAbs : ℚ)) = (q.num : ℚ) := by
      have ha : |q.num| = q.num := abs_of_nonneg (not_lt.mp hneg)
      rw [Int.cast_natAbs, ha]
    have hpq : q = (q.num.natAbs : ℚ) / (q.den : ℚ) := by
      rw [eq_div_iff hdq, h1]
      linear_combination -hqden
    rw [hmk]
    nth_rewrite 2 [hpq]
    exact roundCore_abs_le q.num.natAbs q.den (roundNum p q) p hd rfl

theorem roundFixed_exact (p : ℕ) (q : ℚ) (h : ∃ k : ℤ, q * 10 ^ p = (k : ℚ)) :
    roundFixed p q = q := by
  obtain ⟨k, hk⟩ := h
  have hd : 0 < q.den := q.pos
  have hq : (q.num : ℚ) / (q.den : ℚ) = q := Rat.num_div_den q
  have hdq : ((q.den : ℚ)) ≠ 0 := by positivity
  have hqden : q * (q.den : ℚ) = (q.num : ℚ) :=
    ((div_eq_iff hdq).mp hq).symm
  have hint : q.num * 10 ^ p = k * q.den := by
    have hc : ((q.num : ℚ)) * 10 ^ p = (k : ℚ) * (q.den : ℚ) := by
      calc ((q.num : ℚ)) * 10 ^ p = q * (q.den : ℚ) * 10 ^ p := by rw [hqden]
      _ = (q * 10 ^ p) * (q.den : ℚ) := by ring
      _ = (k : ℚ) * (q.den : ℚ) := by rw [hk]
    exact_mod_cast hc
  have hnat : q.num.natAbs * 10 ^ p = k.natAbs * q.den := by
    have := congrArg Int.natAbs hint
    simpa [Int.natAbs_mul, Int.natAbs_pow] using this
  have hr : roundNum p q = k.natAbs := by
    unfold roundNum
    rw [show 2 * q.num.natAbs * 10 ^ p = 2 * (q.num.natAbs * 10 ^ p) by ring, hnat]
    rw [show 2 * (k.natAbs * q.den) + q.den = q.den * (2 * k.natAbs + 1) by ring,
      show 2 * q.den = q.den * 2 by ring]
    rw [Nat.mul_div_mul_left _ _ hd]
    omega
  have hP : ((10 : ℚ) ^ p) ≠ 0 := by positivity
  have hqk : q = (k : ℚ) / (10 ^ p : ℚ) := by
    rw [eq_div_iff hP]
    exact hk
  unfold roundFixed
  rw [hr]
  by_cases hneg : q.num < 0
  · simp only [hneg, if_true]
    have hk0 : k ≤ 0 := by
      by_contra hpos
      push_neg at hpos
      have h1 : q.num * 10 ^ p < 0 :=
        mul_neg_of_neg_of_pos hneg (by positivity)
      have h2 : 0 < k * (q.den : ℤ) := by positivity
      omega
    have hka : ((k.natAbs : ℤ)) = -k := Int.ofNat_natAbs_of_nonpos hk0
    rw [Rat.mkRat_eq_div, hqk]
    push_cast [hka]
    ring
  · simp only [hneg, if_false]
    have hk0 : 0 ≤ k := by
      by_contra hneg2
      push_neg at hneg2
      have h1 : 0 ≤ q.num * 10 ^ p :=
        mul_nonneg (not_lt.mp hneg) (by positivity)
      have h2 : k * (q.den : ℤ) < 0 := by
        apply mul_neg_of_neg_of_pos hneg2
        exact_mod_cast hd
      omega
    have hka : ((k.natAbs : ℤ)) = k := Int.natAbs_of_nonneg hk0
    rw [Rat.mkRat_eq_div, hqk]
    push_cast [hka]
    ring

theorem splitOn1_cons_ne (sep a : Char) (cs : List Char) (ha : ¬(a = sep)) :
    splitOn1 sep (a :: cs) =
      match splitOn1 sep cs with
      | [] => [[a]]
      | l :: ls => (a :: l) :: ls := by
  cases cs with
  | nil => simp [splitOn1, ha]
  | cons b bs => simp [splitOn1, ha]

theorem splitOn1_line (sep : Char) (l rest : List Char) (hl : ∀ c ∈ l, c ≠ sep) :
    splitOn1 sep (l ++ sep :: rest) = l :: splitOn1 sep rest := by
  induction l with
  | nil =>
    simp [splitOn1]
  | cons a as ih =>
    have ha : ¬(a = sep) := hl a (by simp)
    rw [List.cons_append, splitOn1_cons_ne sep a _ ha,
      ih (fun c hc => hl c (by simp [hc]))]

theorem readFloats_savetxt (xs : List ℚ) :
    readFloats (savetxt8 xs) = some (xs.map (roundFixed 8)) := by
  induction xs with
  | nil => rfl
  | cons x xs ih =>
    have hsx : savetxt8 (x :: xs) = fmtFixed 8 x ++ '\n' :: savetxt8 xs := by
      unfold savetxt8
      simp
    have hnl : ∀ c ∈ fmtFixed 8 x, c ≠ '\n' := by
      intro c hc heq
      have hws := fmtFixed_mem 8 x c hc
      rw [heq] at hws
      exact absurd hws (by decide)
    have hne2 : (!(fmtFixed 8 x).isEmpty) = true := by
      rcases hfe : fmtFixed 8 x with _ | ⟨c, t⟩
      · exact absurd hfe (fmtFixed_ne_nil 8 x)
      · rfl
    unfold readFloats
    rw [hsx, splitOn1_line '\n' (fmtFixed 8 x) (savetxt8 xs) hnl]
    rw [List.filter_cons]
    simp only [hne2, if_true]
    unfold floatList
    rw [pyFloat?_fmtFixed 8 (by omega) x]
    unfold readFloats at ih
    rw [ih]
    rfl

/-- C8: serialising a weights sequence with the `%.8f` fixed-point format
(one value per line) and re-reading the file as floats recovers a sequence
of the same length whose values are the originals rounded to 8 decimal
digits — within `10^-8/2` of the originals, and exactly equal for values
representable with 8 decimal digits. -/
theorem claim_C8 (ws : List ℚ) :
    readFloats (savetxt8 ws) = some (ws.map (roundFixed 8)) ∧
    (ws.map (roundFixed 8)).length = ws.length ∧
    (∀ w ∈ ws, |roundFixed 8 w - w| ≤ 1 / (2 * 10 ^ 8)) ∧
    (∀ w ∈ ws, (∃ k : ℤ, w * 10 ^ 8 = (k : ℚ)) → roundFixed 8 w = w) :=
  ⟨readFloats_savetxt ws, by simp,
   fun w _ => roundFixed_abs_le 8 w,
   fun w _ h => roundFixed_exact 8 w h⟩

theorem claim_C8_witness :
    readFloats (savetxt8 [mkRat 1 4]) = some ([mkRat 1 4].map (roundFixed 8)) ∧
    roundFixed 8 (mkRat 1 4) = mkRat 1 4 :=
  ⟨(claim_C8 [mkRat 1 4]).1,
   (claim_C8 [mkRat 1 4]).2.2.2 (mkRat 1 4) (by simp)
     ⟨25000000, by norm_num [Rat.mkRat_eq_div]⟩⟩
